import Mathlib

/-!
Verification of the LainExBot download orchestration engine (`managers.py`,
`utils.py`, `errors.py`) against its natural-language specification.

Modelling conventions:
* Python `dict` entries that are popped once they reach their default value are
  modelled as total functions where an absent entry is the default (`0` for the
  queued counter, `∅` for the active-task set); the observable behaviour
  (`dict.get(k, default)`) is identical.
* Python integers are `Int` (counters) or `Nat` (identifiers); file sizes
  (floats obtained by dividing byte counts) are `ℚ`.
* Effectful collaborators (the yt-dlp extractor, the HTTP fetcher, the
  filesystem) are passed in as explicit oracle parameters.
-/

namespace LainExBot

/-- State of a `DownloadManager` instance (`managers.py`, `DownloadManager.__init__`):
`processing`, `task_counter`, the `asyncio.Queue`, `active_tasks` and
`queued_tasks`.  `pendingPut` holds tasks admitted under the lock whose
`queue.put` (performed after the lock is released) has not happened yet, and
`inflight` holds tasks popped by a worker whose `_mark_task_started` has not
happened yet; both windows exist in the source because those operations are
outside the `async with self.lock` region. -/
structure DMState where
  maxConcurrent : Nat
  processing : Int
  taskCounter : Nat
  pendingPut : List (Nat × Nat)
  queue : List (Nat × Nat)
  inflight : List (Nat × Nat)
  active : Nat → Finset Nat
  queuedTasks : Nat → Int

/-- Model of `DownloadManager.__init__(max_concurrent)`: `self.max_concurrent = max(1, max_concurrent)`,
all bookkeeping empty. -/
def initState (maxConcurrent : Nat) : DMState :=
  { maxConcurrent := max 1 maxConcurrent
    processing := 0
    taskCounter := 0
    pendingPut := []
    queue := []
    inflight := []
    active := fun _ => ∅
    queuedTasks := fun _ => 0 }

/-- The mode check at the top of `add_download`: `mode in {FileFormat.VIDEO.value, FileFormat.AUDIO.value}`. -/
def validMode (mode : String) : Bool :=
  mode = "video" || mode = "audio"

/-- The locked section of `DownloadManager.add_download` (managers.py lines 61-79):
reject an invalid mode, reject a requester whose `active + queued` is at the cap,
otherwise increment the task counter and the requester's queued count and record
the task for enqueueing (the actual `queue.put` happens after the lock). -/
def addDownload (s : DMState) (userId : Nat) (mode : String) : DMState × Bool :=
  if validMode mode then
    let act : Int := ((s.active userId).card : Int)
    let qd : Int := s.queuedTasks userId
    if act + qd ≥ (s.maxConcurrent : Int) then (s, false)
    else
      let tid := s.taskCounter + 1
      ({ s with
          taskCounter := tid
          queuedTasks := Function.update s.queuedTasks userId (qd + 1)
          pendingPut := s.pendingPut ++ [(tid, userId)] }, true)
  else (s, false)

/-- The `await self.queue.put(...)` of `add_download` (line 81): move one admitted
task to the tail of the queue. -/
def putPending (s : DMState) (p : Nat × Nat) : DMState :=
  { s with pendingPut := s.pendingPut.erase p, queue := s.queue ++ [p] }

/-- One complete `add_download` call: the locked admission followed by the
`queue.put` of the task it admitted. -/
def addDownloadFull (s : DMState) (userId : Nat) (mode : String) : DMState × Bool :=
  match addDownload s userId mode with
  | (s', false) => (s', false)
  | (s', true) => (putPending s' (s'.taskCounter, userId), true)

/-- Model of `DownloadManager._mark_task_started` (lines 109-119): decrement the queued
count (dropping the entry at zero), add the task id to the requester's active
set, increment `processing`. -/
def markTaskStarted (s : DMState) (userId taskId : Nat) : DMState :=
  let qd := s.queuedTasks userId - 1
  { s with
      queuedTasks := Function.update s.queuedTasks userId (if qd > 0 then qd else 0)
      active := Function.update s.active userId (insert taskId (s.active userId))
      processing := s.processing + 1 }

/-- Model of `DownloadManager._mark_task_finished` (lines 121-130): remove the task from
the requester's active set only when present (dropping the entry once empty),
decrement `processing` only when positive. -/
def markTaskFinished (s : DMState) (userId taskId : Nat) : DMState :=
  { s with
      active :=
        if taskId ∈ s.active userId then
          Function.update s.active userId ((s.active userId).erase taskId)
        else s.active
      processing := if s.processing > 0 then s.processing - 1 else s.processing }

/-- Interleaving semantics of the manager: any number of concurrent
`add_download` producers and worker loops, at the atomicity granularity of the
source (locked sections, `queue.put`, `queue.get`, `_mark_task_started`,
`_mark_task_finished`). -/
inductive Step : DMState → DMState → Prop
  | request (s : DMState) (userId : Nat) (mode : String) :
      Step s (addDownload s userId mode).1
  | put (s : DMState) (p : Nat × Nat) (h : p ∈ s.pendingPut) :
      Step s (putPending s p)
  | dequeue (s : DMState) (p : Nat × Nat) (rest : List (Nat × Nat))
      (h : s.queue = p :: rest) :
      Step s { s with queue := rest, inflight := s.inflight ++ [p] }
  | start (s : DMState) (p : Nat × Nat) (h : p ∈ s.inflight) :
      Step s (markTaskStarted { s with inflight := s.inflight.erase p } p.2 p.1)
  | finish (s : DMState) (userId taskId : Nat) :
      Step s (markTaskFinished s userId taskId)

/-- States reachable from a freshly constructed manager. -/
def Reachable (n : Nat) (s : DMState) : Prop :=
  Relation.ReflTransGen Step (initState n) s

/-- Number of entries of requester `u` in a task list. -/
def userCount (u : Nat) (l : List (Nat × Nat)) : Nat :=
  (l.filter (fun p => p.2 == u)).length

theorem userCount_append (u : Nat) (l₁ l₂ : List (Nat × Nat)) :
    userCount u (l₁ ++ l₂) = userCount u l₁ + userCount u l₂ := by
  simp [userCount, List.filter_append]

theorem userCount_cons (u : Nat) (p : Nat × Nat) (l : List (Nat × Nat)) :
    userCount u (p :: l) = (if p.2 = u then 1 else 0) + userCount u l := by
  by_cases h : p.2 = u
  · simp [userCount, List.filter_cons, h, Nat.add_comm]
  · simp [userCount, List.filter_cons, h]

theorem userCount_singleton (u : Nat) (p : Nat × Nat) :
    userCount u [p] = if p.2 = u then 1 else 0 := by
  rw [userCount_cons]
  simp [userCount]

theorem userCount_erase (u : Nat) (p : Nat × Nat) (l : List (Nat × Nat))
    (hp : p ∈ l) :
    userCount u l = userCount u (l.erase p) + (if p.2 = u then 1 else 0) := by
  induction l with
  | nil => cases hp
  | cons q t ih =>
      by_cases hqp : q = p
      · subst hqp
        rw [List.erase_cons_head, userCount_cons, Nat.add_comm]
      · have hpt : p ∈ t := by
          rcases List.mem_cons.mp hp with h | h
          · exact absurd h.symm hqp
          · exact h
        rw [List.erase_cons_tail (by simpa using hqp), userCount_cons, userCount_cons,
          ih hpt, Nat.add_assoc]

/-- Strengthened invariant: each requester's queued counter equals the number of
that requester's tasks currently travelling towards `_mark_task_started`
(awaiting put, queued, or popped-but-not-started), the per-requester cap holds,
and `processing` is non-negative. -/
def QuotaInv (s : DMState) : Prop :=
  (∀ u, s.queuedTasks u =
      ((userCount u s.pendingPut + userCount u s.queue + userCount u s.inflight : Nat) : Int))
  ∧ (∀ u, ((s.active u).card : Int) + s.queuedTasks u ≤ (s.maxConcurrent : Int))
  ∧ 0 ≤ s.processing

theorem quotaInv_init (n : Nat) : QuotaInv (initState n) := by
  refine ⟨fun u => ?_, fun u => ?_, ?_⟩
  · simp [initState, userCount]
  · simp only [initState, Finset.card_empty]
    have : (0 : Int) ≤ (max 1 n : Nat) := Int.ofNat_nonneg _
    omega
  · simp [initState]

theorem addDownload_eq (s : DMState) (userId : Nat) (mode : String) :
    addDownload s userId mode =
      if validMode mode = true ∧
          ((s.active userId).card : Int) + s.queuedTasks userId < (s.maxConcurrent : Int) then
        ({ s with
            taskCounter := s.taskCounter + 1
            queuedTasks := Function.update s.queuedTasks userId (s.queuedTasks userId + 1)
            pendingPut := s.pendingPut ++ [(s.taskCounter + 1, userId)] }, true)
      else (s, false) := by
  unfold addDownload
  by_cases hm : validMode mode = true
  · by_cases hcap : ((s.active userId).card : Int) + s.queuedTasks userId < (s.maxConcurrent : Int)
    · rw [if_pos hm, if_neg (not_le.mpr hcap), if_pos ⟨hm, hcap⟩]
    · rw [if_pos hm, if_pos (not_lt.mp hcap), if_neg (fun hh => hcap hh.2)]
  · rw [if_neg hm, if_neg (fun hh => hm hh.1)]

theorem quotaInv_step {s s' : DMState} (hs : Step s s') (h : QuotaInv s) :
    QuotaInv s' := by
  obtain ⟨h1, h2, h3⟩ := h
  cases hs with
  | request userId mode =>
      rw [addDownload_eq]
      split
      case isFalse => exact ⟨h1, h2, h3⟩
      case isTrue hcond =>
        refine ⟨fun u => ?_, fun u => ?_, h3⟩
        · by_cases hu : u = userId
          · subst hu
            simp only [Function.update_same, userCount_append, userCount_singleton,
              if_pos rfl]
            rw [h1 u]
            push_cast
            ring
          · simp only [Function.update_noteq hu, userCount_append, userCount_singleton]
            rw [if_neg (Ne.symm hu), h1 u]
            push_cast
            ring
        · by_cases hu : u = userId
          · subst hu
            simp only [Function.update_same]
            have := hcond.2
            omega
          · simp only [Function.update_noteq hu]
            exact h2 u
  | put p hp =>
      refine ⟨fun u => ?_, fun u => h2 u, h3⟩
      have herase := userCount_erase u p s.pendingPut hp
      simp only [putPending, userCount_append, userCount_singleton]
      rw [h1 u] at *
      by_cases hu : p.2 = u
      · rw [if_pos hu] at herase ⊢
        push_cast at *
        omega
      · rw [if_neg hu] at herase ⊢
        push_cast at *
        omega
  | dequeue p rest hq =>
      refine ⟨fun u => ?_, fun u => h2 u, h3⟩
      have hqc : userCount u s.queue = (if p.2 = u then 1 else 0) + userCount u rest := by
        rw [hq, userCount_cons]
      have hh := h1 u
      simp only [userCount_append, userCount_singleton]
      rw [hqc] at hh
      by_cases hu : p.2 = u
      · rw [if_pos hu] at hh ⊢
        push_cast at *
        omega
      · rw [if_neg hu] at hh ⊢
        push_cast at *
        omega
  | start p hp =>
      obtain ⟨tid, pu⟩ := p
      have herase := userCount_erase pu (tid, pu) s.inflight hp
      rw [if_pos rfl] at herase
      refine ⟨fun u => ?_, fun u => ?_, ?_⟩
      · by_cases hu : u = pu
        · rw [hu]
          have hq := h1 pu
          rw [herase] at hq
          simp only [markTaskStarted, Function.update_same]
          split
          · push_cast at *
            omega
          · push_cast at *
            omega
        · have h' := userCount_erase u (tid, pu) s.inflight hp
          rw [if_neg (fun hh => hu hh.symm), Nat.add_zero] at h'
          simp only [markTaskStarted, Function.update_noteq hu]
          rw [← h']
          exact h1 u
      · by_cases hu : u = pu
        · rw [hu]
          have hq := h1 pu
          rw [herase] at hq
          have hcard : (insert tid (s.active pu)).card ≤ (s.active pu).card + 1 :=
            Finset.card_insert_le _ _
          have hb := h2 pu
          simp only [markTaskStarted, Function.update_same]
          split
          · push_cast at *
            omega
          · push_cast at *
            omega
        · simp only [markTaskStarted, Function.update_noteq hu]
          exact h2 u
      · simp only [markTaskStarted]
        omega
  | finish userId taskId =>
      refine ⟨fun u => h1 u, fun u => ?_, ?_⟩
      · by_cases hmem : taskId ∈ s.active userId
        · by_cases hu : u = userId
          · subst hu
            have hcard : ((s.active u).erase taskId).card ≤ (s.active u).card :=
              Finset.card_erase_le
            have hb := h2 u
            simp only [markTaskFinished, if_pos hmem, Function.update_same]
            push_cast at *
            omega
          · simp only [markTaskFinished, if_pos hmem, Function.update_noteq hu]
            exact h2 u
        · simp only [markTaskFinished, if_neg hmem]
          exact h2 u
      · simp only [markTaskFinished]
        split
        · omega
        · exact h3

theorem quotaInv_reachable {n : Nat} {s : DMState} (h : Reachable n s) : QuotaInv s := by
  induction h with
  | refl => exact quotaInv_init n
  | tail _ hstep ih => exact quotaInv_step hstep ih

/-- C1: for every requester and at every reachable state of the
`DownloadManager`, under any interleaving of `add_download`,
`_mark_task_started` and `_mark_task_finished` calls (at the atomicity
granularity of the source), the requester's queued count plus the size of the
requester's active task set is at most `max_concurrent`. -/
theorem quota_bound_reachable (n : Nat) (s : DMState) (h : Reachable n s) (u : Nat) :
    ((s.active u).card : Int) + s.queuedTasks u ≤ (s.maxConcurrent : Int) :=
  (quotaInv_reachable h).2.1 u

/-- A concrete run of the manager: one admission, its enqueue, a worker dequeue
and the matching `_mark_task_started`. -/
def demo1 : DMState := (addDownload (initState 2) 0 "video").1

def demo2 : DMState := putPending demo1 (1, 0)

def demo3 : DMState := { demo2 with queue := [], inflight := demo2.inflight ++ [(1, 0)] }

def demo4 : DMState := markTaskStarted { demo3 with inflight := demo3.inflight.erase (1, 0) } 0 1

/-- Witness for C1 at a concrete reachable state. -/
theorem quota_bound_reachable_witness :
    ((demo4.active 0).card : Int) + demo4.queuedTasks 0 ≤ (demo4.maxConcurrent : Int) := by
  refine quota_bound_reachable 2 demo4 ?_ 0
  have s1 : Step (initState 2) demo1 := Step.request _ 0 "video"
  have s2 : Step demo1 demo2 := Step.put _ (1, 0) (by decide)
  have s3 : Step demo2 demo3 := Step.dequeue _ (1, 0) [] (by decide)
  have s4 : Step demo3 demo4 := Step.start _ (1, 0) (by decide)
  exact (((Relation.ReflTransGen.refl.tail s1).tail s2).tail s3).tail s4

theorem addDownloadFull_eq (s : DMState) (userId : Nat) (mode : String) :
    addDownloadFull s userId mode =
      if validMode mode = true ∧
          ((s.active userId).card : Int) + s.queuedTasks userId < (s.maxConcurrent : Int) then
        (putPending
          { s with
              taskCounter := s.taskCounter + 1
              queuedTasks := Function.update s.queuedTasks userId (s.queuedTasks userId + 1)
              pendingPut := s.pendingPut ++ [(s.taskCounter + 1, userId)] }
          (s.taskCounter + 1, userId), true)
      else (s, false) := by
  by_cases hc : validMode mode = true ∧
      ((s.active userId).card : Int) + s.queuedTasks userId < (s.maxConcurrent : Int)
  · unfold addDownloadFull
    rw [addDownload_eq, if_pos hc, if_pos hc]
  · unfold addDownloadFull
    rw [addDownload_eq, if_neg hc, if_neg hc]

/-- C6: `add_download` admits a request (with a valid mode) iff the requester's
active count plus queued count is strictly below the cap; on success it
increments the requester's queued count and enqueues exactly one task; on denial
it returns `False` and changes nothing; and after `_mark_task_finished` removes
an active task of a requester exactly at cap, a subsequent admission by the same
requester succeeds. -/
theorem add_download_admission_spec (s : DMState) (userId : Nat) (mode : String)
    (hmode : validMode mode = true) :
    ((addDownloadFull s userId mode).2 = true ↔
        ((s.active userId).card : Int) + s.queuedTasks userId < (s.maxConcurrent : Int))
    ∧ ((addDownloadFull s userId mode).2 = true →
        (addDownloadFull s userId mode).1.queuedTasks userId = s.queuedTasks userId + 1 ∧
        (addDownloadFull s userId mode).1.queue = s.queue ++ [(s.taskCounter + 1, userId)])
    ∧ ((addDownloadFull s userId mode).2 = false → (addDownloadFull s userId mode).1 = s)
    ∧ (∀ taskId, taskId ∈ s.active userId →
        ((s.active userId).card : Int) + s.queuedTasks userId = (s.maxConcurrent : Int) →
        (addDownloadFull (markTaskFinished s userId taskId) userId mode).2 = true) := by
  refine ⟨?_, ?_, ?_, ?_⟩
  · rw [addDownloadFull_eq]
    by_cases hcap : ((s.active userId).card : Int) + s.queuedTasks userId < (s.maxConcurrent : Int)
    · rw [if_pos ⟨hmode, hcap⟩]
      simpa using hcap
    · rw [if_neg (fun hh => hcap hh.2)]
      simpa using hcap
  · rw [addDownloadFull_eq]
    by_cases hcap : ((s.active userId).card : Int) + s.queuedTasks userId < (s.maxConcurrent : Int)
    · rw [if_pos ⟨hmode, hcap⟩]
      intro _
      constructor
      · simp [putPending, Function.update_same]
      · simp [putPending]
    · rw [if_neg (fun hh => hcap hh.2)]
      intro hh
      cases hh
  · rw [addDownloadFull_eq]
    by_cases hcap : ((s.active userId).card : Int) + s.queuedTasks userId < (s.maxConcurrent : Int)
    · rw [if_pos ⟨hmode, hcap⟩]
      intro hh
      cases hh
    · rw [if_neg (fun hh => hcap hh.2)]
      intro _
      rfl
  · intro taskId hmem hcap
    have hcard : ((s.active userId).erase taskId).card = (s.active userId).card - 1 :=
      Finset.card_erase_of_mem hmem
    have hpos : 1 ≤ (s.active userId).card := Finset.card_pos.mpr ⟨taskId, hmem⟩
    have hact : (markTaskFinished s userId taskId).active userId =
        (s.active userId).erase taskId := by
      simp [markTaskFinished, hmem, Function.update_same]
    have hq : (markTaskFinished s userId taskId).queuedTasks userId = s.queuedTasks userId := by
      simp [markTaskFinished]
    have hmax : (markTaskFinished s userId taskId).maxConcurrent = s.maxConcurrent := by
      simp [markTaskFinished]
    have hlt : (((markTaskFinished s userId taskId).active userId).card : Int)
        + (markTaskFinished s userId taskId).queuedTasks userId
        < ((markTaskFinished s userId taskId).maxConcurrent : Int) := by
      rw [hact, hq, hcard, hmax]
      omega
    rw [addDownloadFull_eq, if_pos ⟨hmode, hlt⟩]

/-- Witness for C6: a fresh requester is admitted, and a requester at cap is
admitted again right after one of its active tasks finishes. -/
theorem add_download_admission_witness :
    (addDownloadFull (initState 2) 0 "video").2 = true ∧
    (addDownloadFull (markTaskFinished (markTaskStarted (initState 1) 0 1) 0 1) 0 "video").2 = true := by
  constructor
  · exact (add_download_admission_spec (initState 2) 0 "video" rfl).1.mpr (by decide)
  · exact (add_download_admission_spec (markTaskStarted (initState 1) 0 1) 0 "video" rfl).2.2.2
      1 (by decide) (by decide)

/-- C10: quota bookkeeping is total and never underflows — in every reachable
state the `processing` counter and every per-requester queued count are
non-negative, and `_mark_task_finished` for a task id that is not in the
requester's active set leaves `active_tasks` and `queued_tasks` unchanged. -/
theorem quota_bookkeeping_total :
    (∀ (n : Nat) (s : DMState), Reachable n s →
        0 ≤ s.processing ∧ ∀ u, 0 ≤ s.queuedTasks u)
    ∧ (∀ (s : DMState) (userId taskId : Nat), taskId ∉ s.active userId →
        (markTaskFinished s userId taskId).active = s.active ∧
        (markTaskFinished s userId taskId).queuedTasks = s.queuedTasks) := by
  constructor
  · intro n s h
    obtain ⟨h1, _, h3⟩ := quotaInv_reachable h
    refine ⟨h3, fun u => ?_⟩
    rw [h1 u]
    exact Int.ofNat_nonneg _
  · intro s userId taskId hmem
    constructor
    · simp [markTaskFinished, hmem]
    · simp [markTaskFinished]

/-- Witness for C10 at concrete states. -/
theorem quota_bookkeeping_total_witness :
    0 ≤ (initState 3).processing ∧
    (markTaskFinished (initState 3) 5 7).active = (initState 3).active :=
  ⟨(quota_bookkeeping_total.1 3 (initState 3) Relation.ReflTransGen.refl).1,
   (quota_bookkeeping_total.2 (initState 3) 5 7 (by simp [initState])).1⟩

/-- Models Python `str.lower` on one character, for the alphabets occurring in
this codebase (ASCII letters and Cyrillic А-Я/Ё). -/
def pyLowerChar (c : Char) : Char :=
  if 'A' ≤ c ∧ c ≤ 'Z' then Char.ofNat (c.toNat + 32)
  else if 'А' ≤ c ∧ c ≤ 'Я' then Char.ofNat (c.toNat + 32)
  else if c = 'Ё' then 'ё'
  else c

/-- Models Python `str.lower`. -/
def pyLower (s : String) : String := String.mk (s.toList.map pyLowerChar)

/-- Here `charsStartWith pat l` is true when `pat` is an initial segment of `l`. -/
def charsStartWith : List Char → List Char → Bool
  | [], _ => true
  | _ :: _, [] => false
  | p :: ps, c :: cs => p == c && charsStartWith ps cs

/-- Here `charsContain pat l` models Python `pat in l` on character lists. -/
def charsContain (pat : List Char) : List Char → Bool
  | [] => pat.isEmpty
  | c :: rest => charsStartWith pat (c :: rest) || charsContain pat rest

/-- Python `pat in text` for strings. -/
def strContains (text pat : String) : Bool := charsContain pat.toList text.toList

/-- Python `pat in text.lower()`: case-insensitive containment of a (lowercase)
pattern. -/
def containsCI (text pat : String) : Bool := strContains (pyLower text) pat

/-- The fixed transient-phrase set of `DownloadManager._is_tiktok_extraction_error`. -/
def tiktokTransientTokens : List String :=
  ["unable to extract webpage video data", "unable to download webpage",
    "video not available", "extractorerror"]

/-- Model of `DownloadManager._is_tiktok_extraction_error` (managers.py lines 341-355):
lowercase the failure text, require "tiktok" to occur, and require one of the
fixed transient phrases to occur. -/
def isTiktokExtractionError (errText : String) : Bool :=
  let msg := pyLower errText
  strContains msg "tiktok" && tiktokTransientTokens.any (fun t => strContains msg t)

/-- C5: a raw failure text is classified as recoverable iff it contains the
platform name "tiktok" case-insensitively and contains (case-insensitively, the
comparison being made on the lowercased text) at least one phrase of the fixed
transient set; in particular a text naming the platform together with "video
not available" is recoverable while the same text without the platform name is
not. -/
theorem tiktok_error_classifier_spec (errText : String) :
    (isTiktokExtractionError errText = true ↔
      (containsCI errText "tiktok" = true ∧
        ∃ t ∈ tiktokTransientTokens, containsCI errText t = true))
    ∧ isTiktokExtractionError "TikTok: Video not available" = true
    ∧ isTiktokExtractionError "Video not available" = false := by
  refine ⟨?_, by decide, by decide⟩
  simp [isTiktokExtractionError, containsCI, List.any_eq_true, Bool.and_eq_true]

/-- The literal path segment of the regex `/video/(?P<video_id>\d+)`. -/
def videoPat : List Char := ['/', 'v', 'i', 'd', 'e', 'o', '/']

/-- The greedy `\d+`: the maximal digit run at the head of a character list. -/
def digitRun (l : List Char) : List Char := l.takeWhile Char.isDigit

/-- Whether the regex `/video/(\d+)` matches at the head of `l`; returns the
captured digit group. -/
def tiktokDigitsAt (l : List Char) : Option (List Char) :=
  if charsStartWith videoPat l then
    match l.drop 7 with
    | [] => none
    | c :: rest => if c.isDigit then some (c :: digitRun rest) else none
  else none

/-- Leftmost-match search of `re.search(r"/video/(?P<video_id>\d+)", url)`:
the digit group of the first position where the pattern matches. -/
def findVideoDigits : List Char → Option (List Char)
  | [] => none
  | c :: rest =>
      match tiktokDigitsAt (c :: rest) with
      | some ds => some ds
      | none => findVideoDigits rest

/-- The rebuilt-URL stem of `_canonicalize_tiktok_video_url`. -/
def tiktokRoot : String := "https://www.tiktok.com/@_/video/"

/-- Model of `DownloadManager._canonicalize_tiktok_video_url` (managers.py lines 310-316). -/
def canonicalizeTiktokVideoUrl (url : String) : Option String :=
  match findVideoDigits url.toList with
  | none => none
  | some ds => some (tiktokRoot ++ String.mk ds)

theorem charsStartWith_append_self (p t : List Char) :
    charsStartWith p (p ++ t) = true := by
  induction p with
  | nil => rfl
  | cons c cs ih => simp [charsStartWith, ih]

theorem charsStartWith_decomp (p l : List Char) (h : charsStartWith p l = true) :
    l = p ++ l.drop p.length := by
  induction p generalizing l with
  | nil => simp
  | cons c cs ih =>
      cases l with
      | nil => simp [charsStartWith] at h
      | cons d ds =>
          simp only [charsStartWith, Bool.and_eq_true, beq_iff_eq] at h
          obtain ⟨rfl, h2⟩ := h
          simpa using ih ds h2

theorem tiktokDigitsAt_nil : tiktokDigitsAt [] = none := by
  simp [tiktokDigitsAt, videoPat, charsStartWith]

theorem tiktokDigitsAt_some_decomp (l ds : List Char) (h : tiktokDigitsAt l = some ds) :
    ∃ c rest, l = videoPat ++ c :: rest ∧ c.isDigit = true ∧ ds = c :: digitRun rest := by
  unfold tiktokDigitsAt at h
  by_cases hs : charsStartWith videoPat l = true
  · rw [if_pos hs] at h
    have hdec := charsStartWith_decomp videoPat l hs
    cases hd : l.drop 7 with
    | nil => rw [hd] at h; cases h
    | cons c rest =>
        rw [hd] at h
        have h' : (if c.isDigit = true then some (c :: digitRun rest) else none) =
            some ds := h
        by_cases hc : c.isDigit = true
        · rw [if_pos hc] at h'
          refine ⟨c, rest, ?_, hc, by injection h' with hh; exact hh.symm⟩
          have hlen : videoPat.length = 7 := rfl
          rw [hlen, hd] at hdec
          exact hdec
        · rw [if_neg hc] at h'; cases h'
  · rw [if_neg hs] at h; cases h

theorem digitRun_mem {x : Char} {l : List Char} (h : x ∈ digitRun l) :
    x.isDigit = true := List.mem_takeWhile_imp h

theorem tiktokDigitsAt_some_digits (l ds : List Char) (h : tiktokDigitsAt l = some ds) :
    ds ≠ [] ∧ ∀ x ∈ ds, x.isDigit = true := by
  obtain ⟨c, rest, _, hc, rfl⟩ := tiktokDigitsAt_some_decomp l ds h
  refine ⟨by simp, fun x hx => ?_⟩
  rcases List.mem_cons.mp hx with rfl | hx
  · exact hc
  · exact digitRun_mem hx

theorem findVideoDigits_eq_none_iff (l : List Char) :
    findVideoDigits l = none ↔ ∀ i, tiktokDigitsAt (l.drop i) = none := by
  induction l with
  | nil => simp [findVideoDigits, tiktokDigitsAt_nil]
  | cons c rest ih =>
      constructor
      · intro h i
        unfold findVideoDigits at h
        cases hh : tiktokDigitsAt (c :: rest) with
        | some ds => rw [hh] at h; cases h
        | none =>
            rw [hh] at h
            cases i with
            | zero => simpa using hh
            | succ j => simpa using (ih.mp h) j
      · intro h
        unfold findVideoDigits
        have h0 := h 0
        simp only [List.drop_zero] at h0
        rw [h0]
        exact ih.mpr (fun j => by simpa using h (j + 1))

theorem findVideoDigits_some_decomp (l ds : List Char) (h : findVideoDigits l = some ds) :
    ∃ i, (∀ j, j < i → tiktokDigitsAt (l.drop j) = none) ∧
      tiktokDigitsAt (l.drop i) = some ds := by
  induction l with
  | nil => cases h
  | cons c rest ih =>
      unfold findVideoDigits at h
      cases hh : tiktokDigitsAt (c :: rest) with
      | some ds' =>
          rw [hh] at h
          injection h with h
          subst h
          exact ⟨0, fun j hj => by omega, by simpa using hh⟩
      | none =>
          rw [hh] at h
          obtain ⟨i, hmin, hat⟩ := ih h
          refine ⟨i + 1, fun j hj => ?_, by simpa using hat⟩
          cases j with
          | zero => simpa using hh
          | succ j' => simpa using hmin j' (by omega)

theorem findVideoDigits_some_digits (l ds : List Char) (h : findVideoDigits l = some ds) :
    ds ≠ [] ∧ ∀ x ∈ ds, x.isDigit = true := by
  obtain ⟨i, _, hat⟩ := findVideoDigits_some_decomp l ds h
  exact tiktokDigitsAt_some_digits _ _ hat

/-- Scanning the canonical stem: no position inside
`"https://www.tiktok.com/@_"` matches the pattern, so the first match of
`tiktokRoot ++ ds` is at the final `/video/`. -/
theorem findVideoDigits_root (ds : List Char) (hne : ds ≠ [])
    (hd : ∀ x ∈ ds, x.isDigit = true) :
    findVideoDigits (tiktokRoot.toList ++ ds) = some ds := by
  obtain ⟨c, rest, rfl⟩ : ∃ c rest, ds = c :: rest := by
    cases ds with
    | nil => exact absurd rfl hne
    | cons c rest => exact ⟨c, rest, rfl⟩
  have hc : c.isDigit = true := hd c (by simp)
  have hrest : digitRun rest = rest :=
    List.takeWhile_eq_self_iff.mpr (fun x hx => hd x (by simp [hx]))
  have key : findVideoDigits (tiktokRoot.toList ++ c :: rest) =
      some (c :: digitRun rest) := by
    simp +decide [tiktokRoot, findVideoDigits, tiktokDigitsAt, charsStartWith, videoPat,
      String.toList, hc]
  rw [key, hrest]

theorem canonicalize_toList (ds : List Char) :
    (tiktokRoot ++ String.mk ds).toList = tiktokRoot.toList ++ ds := by
  show (tiktokRoot ++ String.mk ds).data = tiktokRoot.data ++ ds
  rw [String.data_append]

theorem canonicalize_eq_none_iff (url : String) :
    canonicalizeTiktokVideoUrl url = none ↔
      ∀ i, tiktokDigitsAt (url.toList.drop i) = none := by
  unfold canonicalizeTiktokVideoUrl
  rw [← findVideoDigits_eq_none_iff]
  cases h : findVideoDigits url.toList with
  | none => simp
  | some ds => simp

/-- C7: canonicalization yields nothing iff no position of the URL matches
`/video/<digits>`; when it yields a result, the result is exactly
`https://www.tiktok.com/@_/video/<digits>` where `<digits>` is the maximal
digit run after the first matching `/video/`; and canonicalization is
idempotent on its own output. -/
theorem canonicalize_tiktok_spec (url : String) :
    (canonicalizeTiktokVideoUrl url = none ↔
      ∀ i, tiktokDigitsAt (url.toList.drop i) = none)
    ∧ (∀ out, canonicalizeTiktokVideoUrl url = some out →
        ∃ i c rest,
          (∀ j, j < i → tiktokDigitsAt (url.toList.drop j) = none) ∧
          url.toList.drop i = videoPat ++ c :: rest ∧ c.isDigit = true ∧
          out = tiktokRoot ++ String.mk (c :: digitRun rest))
    ∧ (∀ out, canonicalizeTiktokVideoUrl url = some out →
        canonicalizeTiktokVideoUrl out = some out) := by
  refine ⟨?_, ?_, ?_⟩
  · exact canonicalize_eq_none_iff url
  · intro out hout
    unfold canonicalizeTiktokVideoUrl at hout
    cases h : findVideoDigits url.toList with
    | none => rw [h] at hout; cases hout
    | some ds =>
        rw [h] at hout
        injection hout with hout
        obtain ⟨i, hmin, hat⟩ := findVideoDigits_some_decomp _ _ h
        obtain ⟨c, rest, hdec, hc, hds⟩ := tiktokDigitsAt_some_decomp _ _ hat
        exact ⟨i, c, rest, hmin, hdec, hc, by rw [← hout, hds]⟩
  · intro out hout
    unfold canonicalizeTiktokVideoUrl at hout
    cases h : findVideoDigits url.toList with
    | none => rw [h] at hout; cases hout
    | some ds =>
        rw [h] at hout
        injection hout with hout
        obtain ⟨hne, hdig⟩ := findVideoDigits_some_digits _ _ h
        unfold canonicalizeTiktokVideoUrl
        rw [← hout, canonicalize_toList, findVideoDigits_root ds hne hdig]

/-- Witness for C7: idempotence at a concrete URL. -/
theorem canonicalize_tiktok_witness :
    canonicalizeTiktokVideoUrl "https://www.tiktok.com/@_/video/777" =
      some "https://www.tiktok.com/@_/video/777" :=
  (canonicalize_tiktok_spec "https://vm.tiktok.com/abc/video/777?x=1").2.2
    "https://www.tiktok.com/@_/video/777" (by decide)

/-- Model of `DownloadManager._build_tiktok_attempt_plan` (managers.py lines 318-339):
fold over the four candidates in priority order, skipping a missing or empty
candidate URL (Python `if not attempt_url`) and skipping pairs already seen.
The Python `seen` set always equals the set of pairs already in `attempts`, so
membership in the accumulator is the same test. -/
def buildTiktokAttemptPlan (url : String) : List (String × Bool) :=
  let canonical := canonicalizeTiktokVideoUrl url
  let cands : List (Option String × Bool) :=
    [(some url, false), (canonical, false), (some url, true), (canonical, true)]
  cands.foldl
    (fun acc c =>
      match c.1 with
      | none => acc
      | some u =>
          if u = "" then acc
          else if (u, c.2) ∈ acc then acc
          else acc ++ [(u, c.2)])
    []

theorem buildTiktokAttemptPlan_eq_none (url : String)
    (hcanon : canonicalizeTiktokVideoUrl url = none) :
    buildTiktokAttemptPlan url =
      if url = "" then [] else [(url, false), (url, true)] := by
  by_cases hu : url = ""
  · subst hu
    simp [buildTiktokAttemptPlan, hcanon]
  · simp [buildTiktokAttemptPlan, hcanon, hu]

theorem buildTiktokAttemptPlan_eq_some (url c : String)
    (hcanon : canonicalizeTiktokVideoUrl url = some c) :
    buildTiktokAttemptPlan url =
      if url = "" then (if c = "" then [] else [(c, false), (c, true)])
      else if c = "" then [(url, false), (url, true)]
      else if c = url then [(url, false), (url, true)]
      else [(url, false), (c, false), (url, true), (c, true)] := by
  by_cases hu : url = ""
  · subst hu
    by_cases hc : c = ""
    · subst hc
      simp [buildTiktokAttemptPlan, hcanon]
    · simp [buildTiktokAttemptPlan, hcanon, hc]
  · by_cases hc : c = ""
    · subst hc
      simp [buildTiktokAttemptPlan, hcanon, hu]
    · by_cases hcu : c = url
      · subst hcu
        simp [buildTiktokAttemptPlan, hcanon, hu, hc]
      · simp [buildTiktokAttemptPlan, hcanon, hu, hc, hcu, Ne.symm hcu]

/-- C4: the attempt plan has at most four `(URL, variant-flag)` candidates, has
no duplicate pair, preserves the fixed priority order
`(url, web), (canonical, web), (url, app), (canonical, app)` (it is a sublist of
that candidate sequence), each available candidate occurs in it, and for a URL
with no `/video/<digits>` segment it has at most two entries. -/
theorem tiktok_attempt_plan_spec (url : String) :
    (buildTiktokAttemptPlan url).length ≤ 4
    ∧ (buildTiktokAttemptPlan url).Nodup
    ∧ (∀ c, canonicalizeTiktokVideoUrl url = some c →
        (buildTiktokAttemptPlan url).Sublist [(url, false), (c, false), (url, true), (c, true)])
    ∧ (canonicalizeTiktokVideoUrl url = none →
        (buildTiktokAttemptPlan url).Sublist [(url, false), (url, true)])
    ∧ ((∀ i, tiktokDigitsAt (url.toList.drop i) = none) →
        (buildTiktokAttemptPlan url).length ≤ 2)
    ∧ (url ≠ "" →
        (url, false) ∈ buildTiktokAttemptPlan url ∧ (url, true) ∈ buildTiktokAttemptPlan url)
    ∧ (∀ c, canonicalizeTiktokVideoUrl url = some c → c ≠ "" →
        (c, false) ∈ buildTiktokAttemptPlan url ∧ (c, true) ∈ buildTiktokAttemptPlan url) := by
  cases hcanon : canonicalizeTiktokVideoUrl url with
  | none =>
      have hplan := buildTiktokAttemptPlan_eq_none url hcanon
      by_cases hu : url = ""
      · rw [if_pos hu] at hplan
        rw [hplan]
        refine ⟨by simp, by simp, ?_, ?_, by simp, ?_, ?_⟩
        · intro c hc; cases hc
        · intro _; exact List.nil_sublist _
        · intro h; exact absurd hu h
        · intro c hc; cases hc
      · rw [if_neg hu] at hplan
        rw [hplan]
        refine ⟨by simp, by simp, ?_, ?_, by simp, by simp, ?_⟩
        · intro c hc; cases hc
        · intro _; exact List.Sublist.refl _
        · intro c hc; cases hc
  | some c =>
      have hplan := buildTiktokAttemptPlan_eq_some url c hcanon
      have hnone : ¬ ∀ i, tiktokDigitsAt (url.toList.drop i) = none := by
        intro h
        have hx := (canonicalize_eq_none_iff url).mpr h
        rw [hcanon] at hx
        cases hx
      by_cases hu : url = ""
      · rw [if_pos hu] at hplan
        by_cases hc : c = ""
        · rw [if_pos hc] at hplan
          rw [hplan]
          refine ⟨by simp, by simp, ?_, ?_, ?_, ?_, ?_⟩
          · intro c' hc'
            exact List.nil_sublist _
          · intro hn; cases hn
          · intro h; exact absurd h hnone
          · intro h; exact absurd hu h
          · intro c' hc' hne
            injection hc' with hc'
            exact absurd hc (by rw [← hc'] at hne; exact hne)
        · rw [if_neg hc] at hplan
          rw [hplan]
          refine ⟨by simp, by simp [hc], ?_, ?_, ?_, ?_, ?_⟩
          · intro c' hc'
            injection hc' with hc'
            rw [hc']
            exact List.Sublist.cons (url, false)
              (List.Sublist.cons₂ (c', false)
                (List.Sublist.cons (url, true)
                  (List.Sublist.cons₂ (c', true) (List.nil_sublist []))))
          · intro hn; cases hn
          · intro h; exact absurd h hnone
          · intro h; exact absurd hu h
          · intro c' hc' hne
            injection hc' with hc'
            rw [hc']
            simp
      · rw [if_neg hu] at hplan
        by_cases hc : c = ""
        · rw [if_pos hc] at hplan
          rw [hplan]
          refine ⟨by simp, by simp, ?_, ?_, ?_, by simp, ?_⟩
          · intro c' hc'
            exact List.Sublist.cons₂ (url, false)
              (List.Sublist.cons (c', false)
                (List.Sublist.cons₂ (url, true)
                  (List.Sublist.cons (c', true) (List.nil_sublist []))))
          · intro hn; cases hn
          · intro h; exact absurd h hnone
          · intro c' hc' hne
            injection hc' with hc'
            exact absurd hc (by rw [← hc'] at hne; exact hne)
        · rw [if_neg hc] at hplan
          by_cases hcu : c = url
          · rw [if_pos hcu] at hplan
            rw [hplan]
            refine ⟨by simp, by simp, ?_, ?_, ?_, by simp, ?_⟩
            · intro c' hc'
              exact List.Sublist.cons₂ (url, false)
                (List.Sublist.cons (c', false)
                  (List.Sublist.cons₂ (url, true)
                    (List.Sublist.cons (c', true) (List.nil_sublist []))))
            · intro hn; cases hn
            · intro h; exact absurd h hnone
            · intro c' hc' hne
              injection hc' with hc'
              rw [← hc', hcu]
              simp
          · rw [if_neg hcu] at hplan
            rw [hplan]
            refine ⟨by simp, by simp [hcu, Ne.symm hcu], ?_, ?_, ?_, by simp, ?_⟩
            · intro c' hc'
              injection hc' with hc'
              rw [hc']
            · intro hn; cases hn
            · intro h; exact absurd h hnone
            · intro c' hc' hne
              injection hc' with hc'
              rw [hc']
              simp

/-- Witness for C4 at a concrete URL whose canonical form differs from it. -/
theorem tiktok_attempt_plan_witness :
    ("https://www.tiktok.com/@_/video/12345", false) ∈
        buildTiktokAttemptPlan "https://www.tiktok.com/@u/video/12345" ∧
    (buildTiktokAttemptPlan "https://www.tiktok.com/@u/video/12345").Nodup := by
  constructor
  · exact ((tiktok_attempt_plan_spec "https://www.tiktok.com/@u/video/12345").2.2.2.2.2.2
      "https://www.tiktok.com/@_/video/12345" (by decide) (by decide)).1
  · exact (tiktok_attempt_plan_spec "https://www.tiktok.com/@u/video/12345").2.1

/-- The TikTok attempt loop of `DownloadManager._download_content` (managers.py
lines 226-259): try the plan's candidates in order; on an exception record it as
the last error and re-raise unless `_is_tiktok_extraction_error` holds; after
the loop, in video mode consult the HTML last-resort fallback (whose own
exceptions are swallowed, so it is an `Option`); finally re-raise the last
recorded error, or return `None` when there is none.  The external extractor is
a pure oracle from `(url, app_api)` to a file path or a failure text. -/
def runTiktokAttempts (extract : String → Bool → Except String String)
    (isAudio : Bool) (htmlFallback : Option String) :
    List (String × Bool) → Option String → Except String (Option String)
  | [], lastError =>
      match (if isAudio then none else htmlFallback) with
      | some f => Except.ok (some f)
      | none =>
          match lastError with
          | some e => Except.error e
          | none => Except.ok none
  | (u, appApi) :: rest, _lastError =>
      match extract u appApi with
      | Except.ok path => Except.ok (some path)
      | Except.error e =>
          if isTiktokExtractionError e then
            runTiktokAttempts extract isAudio htmlFallback rest (some e)
          else Except.error e

theorem runTiktokAttempts_cons_ok (extract : String → Bool → Except String String)
    (isAudio : Bool) (htmlFallback : Option String) (u : String) (appApi : Bool)
    (rest : List (String × Bool)) (lastError : Option String) (p : String)
    (h : extract u appApi = Except.ok p) :
    runTiktokAttempts extract isAudio htmlFallback ((u, appApi) :: rest) lastError =
      Except.ok (some p) := by
  have heq : runTiktokAttempts extract isAudio htmlFallback ((u, appApi) :: rest) lastError =
      match extract u appApi with
      | Except.ok path => Except.ok (some path)
      | Except.error e =>
          if isTiktokExtractionError e then
            runTiktokAttempts extract isAudio htmlFallback rest (some e)
          else Except.error e := rfl
  rw [heq, h]

theorem runTiktokAttempts_cons_err (extract : String → Bool → Except String String)
    (isAudio : Bool) (htmlFallback : Option String) (u : String) (appApi : Bool)
    (rest : List (String × Bool)) (lastError : Option String) (e : String)
    (h : extract u appApi = Except.error e) :
    runTiktokAttempts extract isAudio htmlFallback ((u, appApi) :: rest) lastError =
      (if isTiktokExtractionError e then
        runTiktokAttempts extract isAudio htmlFallback rest (some e)
      else Except.error e) := by
  have heq : runTiktokAttempts extract isAudio htmlFallback ((u, appApi) :: rest) lastError =
      match extract u appApi with
      | Except.ok path => Except.ok (some path)
      | Except.error e =>
          if isTiktokExtractionError e then
            runTiktokAttempts extract isAudio htmlFallback rest (some e)
          else Except.error e := rfl
  rw [heq, h]

theorem runTiktokAttempts_nil_fb (extract : String → Bool → Except String String)
    (htmlFallback : Option String) (f : String) (lastError : Option String)
    (hf : htmlFallback = some f) :
    runTiktokAttempts extract false htmlFallback [] lastError = Except.ok (some f) := by
  subst hf
  rfl

theorem runTiktokAttempts_nil_err (extract : String → Bool → Except String String)
    (isAudio : Bool) (htmlFallback : Option String) (e : String)
    (h : isAudio = true ∨ htmlFallback = none) :
    runTiktokAttempts extract isAudio htmlFallback [] (some e) = Except.error e := by
  rcases h with h | h
  · subst h
    rfl
  · subst h
    cases isAudio <;> rfl

theorem runTiktokAttempts_skip (extract : String → Bool → Except String String)
    (isAudio : Bool) (htmlFallback : Option String) (front : List (String × Bool))
    (hfront : ∀ q ∈ front, ∃ e, extract q.1 q.2 = Except.error e ∧
      isTiktokExtractionError e = true) :
    ∀ (l : List (String × Bool)) (lastError : Option String),
      ∃ le, runTiktokAttempts extract isAudio htmlFallback (front ++ l) lastError =
        runTiktokAttempts extract isAudio htmlFallback l le ∧
        (front = [] → le = lastError) ∧
        (∀ q e, front.getLast? = some q → extract q.1 q.2 = Except.error e → le = some e) := by
  induction front with
  | nil =>
      intro l lastError
      exact ⟨lastError, rfl, fun _ => rfl, fun q e hq _ => by cases hq⟩
  | cons q front ih =>
      intro l lastError
      obtain ⟨e, he, hrec⟩ := hfront q (by simp)
      have hfront' : ∀ q ∈ front, ∃ e, extract q.1 q.2 = Except.error e ∧
          isTiktokExtractionError e = true := fun q' hq' => hfront q' (by simp [hq'])
      obtain ⟨le, hle, hnil, hlast⟩ := ih hfront' l (some e)
      refine ⟨le, ?_, ?_, ?_⟩
      · obtain ⟨u, appApi⟩ := q
        show runTiktokAttempts extract isAudio htmlFallback ((u, appApi) :: (front ++ l)) lastError = _
        rw [runTiktokAttempts_cons_err extract isAudio htmlFallback u appApi (front ++ l) lastError e he,
          if_pos hrec]
        exact hle
      · intro h; cases h
      · intro q' e' hq' he'
        cases front with
        | nil =>
            simp only [List.getLast?_singleton] at hq'
            injection hq' with hq'
            subst hq'
            rw [he] at he'
            injection he' with he'
            subst he'
            exact hnil rfl
        | cons r front' =>
            refine hlast q' e' ?_ he'
            rw [← hq']
            rfl

/-- C3: for a TikTok fetch, plan candidates are tried strictly in order and the
first success is returned; a recoverable failure (per the classifier) moves on
to the next candidate while any non-recoverable failure aborts the whole fetch
immediately with that error, trying no further candidate and no HTML
last-resort; if every candidate fails recoverably then the HTML last-resort is
used only in video mode, and when it yields nothing the last recorded error is
raised. -/
theorem tiktok_attempt_loop_spec (extract : String → Bool → Except String String)
    (isAudio : Bool) (htmlFallback : Option String)
    (front back : List (String × Bool)) (u : String) (appApi : Bool)
    (hfront : ∀ q ∈ front, ∃ e, extract q.1 q.2 = Except.error e ∧
      isTiktokExtractionError e = true) :
    (∀ p, extract u appApi = Except.ok p →
        runTiktokAttempts extract isAudio htmlFallback (front ++ (u, appApi) :: back) none =
          Except.ok (some p))
    ∧ (∀ e, extract u appApi = Except.error e → isTiktokExtractionError e = false →
        runTiktokAttempts extract isAudio htmlFallback (front ++ (u, appApi) :: back) none =
          Except.error e)
    ∧ (∀ e, extract u appApi = Except.error e → isTiktokExtractionError e = true →
        ((isAudio = false → ∀ f, htmlFallback = some f →
            runTiktokAttempts extract isAudio htmlFallback (front ++ [(u, appApi)]) none =
              Except.ok (some f))
          ∧ ((isAudio = true ∨ htmlFallback = none) →
            runTiktokAttempts extract isAudio htmlFallback (front ++ [(u, appApi)]) none =
              Except.error e))) := by
  obtain ⟨le, hle, -, -⟩ :=
    runTiktokAttempts_skip extract isAudio htmlFallback front hfront ((u, appApi) :: back) none
  obtain ⟨le2, hle2, -, -⟩ :=
    runTiktokAttempts_skip extract isAudio htmlFallback front hfront [(u, appApi)] none
  refine ⟨?_, ?_, ?_⟩
  · intro p hp
    rw [hle]
    exact runTiktokAttempts_cons_ok extract isAudio htmlFallback u appApi back le p hp
  · intro e he hrec
    rw [hle, runTiktokAttempts_cons_err extract isAudio htmlFallback u appApi back le e he,
      if_neg (by rw [hrec]; exact Bool.false_ne_true)]
  · intro e he hrec
    constructor
    · intro hvideo f hf
      subst hvideo
      rw [hle2, runTiktokAttempts_cons_err extract false htmlFallback u appApi [] le2 e he,
        if_pos hrec]
      exact runTiktokAttempts_nil_fb extract htmlFallback f (some e) hf
    · intro hcase
      rw [hle2, runTiktokAttempts_cons_err extract isAudio htmlFallback u appApi [] le2 e he,
        if_pos hrec]
      exact runTiktokAttempts_nil_err extract isAudio htmlFallback e hcase

/-- Witness for C3: a first candidate failing recoverably, then a second
candidate succeeding — the loop returns the second candidate's file. -/
theorem tiktok_attempt_loop_witness :
    runTiktokAttempts
        (fun s _ => if s = "a" then Except.error "tiktok: video not available"
          else Except.ok "file.mp4")
        false none [("a", false), ("b", false)] none = Except.ok (some "file.mp4") :=
  (tiktok_attempt_loop_spec
      (fun s _ => if s = "a" then Except.error "tiktok: video not available"
        else Except.ok "file.mp4")
      false none [("a", false)] [] "b" false
      (fun q hq => by
        have hq' : q = ("a", false) := by simpa using hq
        subst hq'
        exact ⟨"tiktok: video not available", by simp, by decide⟩)).1
    "file.mp4" (by simp)

/-- One character of Python `html.escape` (quote=True): `& < > " '` become
entities; the staged `str.replace` calls of the library are equivalent to this
character-wise map because no replacement output contains a character that a
later stage rewrites. -/
def htmlEscapeChar (c : Char) : List Char :=
  if c = '&' then "&amp;".toList
  else if c = '<' then "&lt;".toList
  else if c = '>' then "&gt;".toList
  else if c = '"' then "&quot;".toList
  else if c = '\'' then "&#x27;".toList
  else [c]

/-- Python `html.escape`. -/
def htmlEscape (s : String) : String := String.mk (s.toList.map htmlEscapeChar).flatten

/-- The "too large" category message of `ErrorManager.to_user_message`. -/
def tooLargeMessage : String :=
  "❌ <b>Файл слишком большой для Telegram.</b>\nВыберите аудио или другой ролик."

/-- Model of `ErrorManager.to_user_message` (errors.py lines 31-80): lowercase the
failure text, walk the fixed category table in order (first match wins), and
fall back to the generic message embedding the escaped raw text truncated to
350 characters. -/
def toUserMessage (errText : String) : String :=
  let msg := pyLower errText
  if strContains msg "drm protected" then
    "🔒 <b>Видео защищено DRM.</b>\nТакой контент нельзя скачать через обычные инструменты (включая yt-dlp)."
  else if strContains msg "unsupported" then
    "❌ <b>Ссылка не поддерживается.</b>\nОтправьте прямую ссылку на пост или видео."
  else if strContains msg "too large" || strContains msg "размер" || strContains msg "max_filesize" then
    tooLargeMessage
  else if strContains msg "timeout" || strContains msg "timed out" then
    "⏱️ <b>Превышено время ожидания.</b>\nПопробуйте снова чуть позже."
  else if strContains msg "disk" || strContains msg "space" then
    "💾 <b>Недостаточно места на диске.</b>\nПовторите попытку позже."
  else if strContains msg "unable to extract webpage video data" then
    "❌ <b>TikTok сейчас не отдаёт данные видео.</b>\nПопробуйте позже, другую ссылку или обновите yt-dlp до последней версии."
  else if strContains msg "video not available" || strContains msg "private" then
    "❌ <b>Видео недоступно.</b>\nВозможно ролик удалён, приватный или ограничен по региону/возрасту."
  else
    "⚠️ <b>Не удалось скачать медиа.</b>\n<code>" ++
      String.mk ((htmlEscape errText).toList.take 350) ++ "</code>"

/-- The text of the `ValueError` raised by the size gate in `_handle_download`
(line 159): `f"Файл больше лимита Telegram ({MAX_FILE_SIZE_MB} МБ)."`. -/
def oversizeErrorText (maxMB : Int) : String :=
  "Файл больше лимита Telegram (" ++ toString maxMB ++ " МБ)."

/-- Model of `models.DownloadStatus`. -/
inductive DStatus where
  | queued
  | downloading
  | sending
  | completed
  | failed
  deriving DecidableEq

/-- Observable outcome of one `_handle_download` execution. -/
structure TaskOutcome where
  status : DStatus
  sendInvoked : Bool
  errorMessage : Option String
  userMessage : Option String
  workspaceRemoved : Bool

/-- The `except` clause of `_handle_download`: status `FAILED`, the raw error
recorded, and the user-facing message sent when `_handle_download_error`'s
`answer` call itself does not raise. -/
def failedOutcome (e : String) (reportOk : Bool) : TaskOutcome :=
  { status := DStatus.failed
    sendInvoked := false
    errorMessage := some e
    userMessage := if reportOk then some (toUserMessage e) else none
    workspaceRemoved := false }

/-- The `try`/`except` body of `DownloadManager._handle_download` (managers.py
lines 145-170) for a task whose temp workspace was created, with the effectful
collaborators as oracles: `diskOk` is `has_enough_disk_space`, `statusFail` a
failure of the initial status-message `answer`, `downloadResult` the outcome of
`_download_content` (`none` meaning no file produced), `fsExists` is
`os.path.exists`, `fileSizeMB` is `get_file_size_mb`, `sendFail` a failure of
`_send_file`, and `reportOk` whether error reporting succeeds. -/
def handleDownloadBody (diskOk : Bool) (statusFail : Option String)
    (downloadResult : Except String (Option String))
    (fsExists : String → Bool) (fileSizeMB : String → ℚ) (maxMB : Int)
    (sendFail : Option String) (reportOk : Bool) : TaskOutcome :=
  if diskOk then
    match statusFail with
    | some e => failedOutcome e reportOk
    | none =>
      match downloadResult with
      | Except.error e => failedOutcome e reportOk
      | Except.ok none => failedOutcome "Файл не найден после загрузки." reportOk
      | Except.ok (some fp) =>
          if fp = "" ∨ fsExists fp = false then
            failedOutcome "Файл не найден после загрузки." reportOk
          else if fileSizeMB fp > (maxMB : ℚ) then
            failedOutcome (oversizeErrorText maxMB) reportOk
          else
            match sendFail with
            | some e =>
                { status := DStatus.failed
                  sendInvoked := true
                  errorMessage := some e
                  userMessage := if reportOk then some (toUserMessage e) else none
                  workspaceRemoved := false }
            | none =>
                { status := DStatus.completed
                  sendInvoked := true
                  errorMessage := none
                  userMessage := none
                  workspaceRemoved := false }
  else failedOutcome "Недостаточно места на диске." reportOk

/-- Model of `_handle_download` including its `finally` clause: whatever the body did —
success, classified failure, or an exception escaping even the error handler —
`cleanup_temp_dir(temp_dir)` runs on the one exit point. -/
def handleDownload (diskOk : Bool) (statusFail : Option String)
    (downloadResult : Except String (Option String))
    (fsExists : String → Bool) (fileSizeMB : String → ℚ) (maxMB : Int)
    (sendFail : Option String) (reportOk : Bool) : TaskOutcome :=
  { handleDownloadBody diskOk statusFail downloadResult fsExists fileSizeMB maxMB sendFail reportOk
      with workspaceRemoved := true }

/-- C9: every `_handle_download` execution that created a temporary workspace
removes it by the time the execution returns, on every exit path (success,
every failure branch, and exceptions escaping the error handler), modelled by
the `finally` clause being post-composed onto every body outcome. -/
theorem workspace_cleanup_spec (diskOk : Bool) (statusFail : Option String)
    (downloadResult : Except String (Option String))
    (fsExists : String → Bool) (fileSizeMB : String → ℚ) (maxMB : Int)
    (sendFail : Option String) (reportOk : Bool) :
    (handleDownload diskOk statusFail downloadResult fsExists fileSizeMB maxMB
        sendFail reportOk).workspaceRemoved = true := rfl

/-- C2 counterexample: with the default ceiling 2048 and an oversize output
file, the task fails and no send is attempted, but the user-facing report is
the *generic* category, not the "too large" category — the raised text
"Файл больше лимита Telegram (2048 МБ)." matches none of the "too large"
branch's substrings ("too large", "размер", "max_filesize"). -/
theorem size_gate_category_counterexample :
    (handleDownload true none (Except.ok (some "a.mp4")) (fun _ => true)
        (fun _ => 3000) 2048 none true).status = DStatus.failed
    ∧ (handleDownload true none (Except.ok (some "a.mp4")) (fun _ => true)
        (fun _ => 3000) 2048 none true).sendInvoked = false
    ∧ (handleDownload true none (Except.ok (some "a.mp4")) (fun _ => true)
        (fun _ => 3000) 2048 none true).userMessage =
        some (toUserMessage (oversizeErrorText 2048))
    ∧ toUserMessage (oversizeErrorText 2048) ≠ tooLargeMessage := by
  refine ⟨?_, ?_, ?_, ?_⟩ <;> decide

/-- C2 (amended): if the selected output file's size exceeds the configured
ceiling, the task transitions to `Failed`, the send operation is never invoked
(the size check sits after output-file selection and before any delivery step),
and the terminal failure is reported through the *generic* failure category
embedding the raw oversize text — not the "too large" category (shown at the
default ceiling 2048). -/
theorem size_gate_spec (fsExists : String → Bool) (fileSizeMB : String → ℚ)
    (maxMB : Int) (sendFail : Option String) (fp : String)
    (hfp : fp ≠ "") (hex : fsExists fp = true) (hsize : fileSizeMB fp > (maxMB : ℚ)) :
    (handleDownload true none (Except.ok (some fp)) fsExists fileSizeMB maxMB
        sendFail true).status = DStatus.failed
    ∧ (handleDownload true none (Except.ok (some fp)) fsExists fileSizeMB maxMB
        sendFail true).sendInvoked = false
    ∧ (handleDownload true none (Except.ok (some fp)) fsExists fileSizeMB maxMB
        sendFail true).errorMessage = some (oversizeErrorText maxMB)
    ∧ (handleDownload true none (Except.ok (some fp)) fsExists fileSizeMB maxMB
        sendFail true).userMessage = some (toUserMessage (oversizeErrorText maxMB))
    ∧ toUserMessage (oversizeErrorText 2048) =
        "⚠️ <b>Не удалось скачать медиа.</b>\n<code>Файл больше лимита Telegram (2048 МБ).</code>"
    ∧ toUserMessage (oversizeErrorText 2048) ≠ tooLargeMessage := by
  have hcond : ¬(fp = "" ∨ fsExists fp = false) := by
    rintro (h | h)
    · exact hfp h
    · rw [hex] at h; cases h
  refine ⟨?_, ?_, ?_, ?_, by decide, by decide⟩ <;>
    simp [handleDownload, handleDownloadBody, hcond, hsize, failedOutcome]

/-- Witness for C2's amended theorem at a concrete oversize run. -/
theorem size_gate_witness :
    (handleDownload true none (Except.ok (some "b.mp4")) (fun _ => true)
        (fun _ => 4000) 2048 none true).status = DStatus.failed
    ∧ (handleDownload true none (Except.ok (some "b.mp4")) (fun _ => true)
        (fun _ => 4000) 2048 none true).sendInvoked = false := by
  have h := size_gate_spec (fun _ => true) (fun _ => 4000) 2048 none "b.mp4"
    (by decide) rfl (by norm_num)
  exact ⟨h.1, h.2.1⟩

/-- One directory entry of the task workspace as seen through
`pathlib.Path.iterdir()`: its path, its `suffix`, its `stat().st_mtime` and
whether it is a regular file. -/
structure FsEntry where
  path : String
  suffix : String
  mtime : Int
  isFile : Bool
  deriving DecidableEq

/-- The first filter of `_find_latest_file`: regular files whose lowercased
suffix is in `allowed_ext` (or all regular files when `allowed_ext` is empty). -/
def matchingFiles (entries : List FsEntry) (allowedExt : List String) : List FsEntry :=
  entries.filter
    (fun e => e.isFile && (allowedExt.isEmpty || allowedExt.contains (pyLower e.suffix)))

/-- The fallback filter of `_find_latest_file`: all regular files. -/
def regularFiles (entries : List FsEntry) : List FsEntry :=
  entries.filter (fun e => e.isFile)

/-- Python `max(files, key=lambda item: item.stat().st_mtime)` keeps the
current element unless a strictly larger key appears, so the first maximum
wins. -/
def latestOf (e : FsEntry) (l : List FsEntry) : FsEntry :=
  l.foldl (fun best x => if x.mtime > best.mtime then x else best) e

/-- Model of `DownloadManager._find_latest_file` (managers.py lines 488-502). -/
def findLatestFile (entries : List FsEntry) (allowedExt : List String) : Option String :=
  let files := matchingFiles entries allowedExt
  let files := if files.isEmpty then regularFiles entries else files
  match files with
  | [] => none
  | e :: rest => some (latestOf e rest).path

theorem latestOf_spec (e : FsEntry) (l : List FsEntry) :
    latestOf e l ∈ e :: l ∧ ∀ x ∈ e :: l, x.mtime ≤ (latestOf e l).mtime := by
  induction l generalizing e with
  | nil => exact ⟨by simp [latestOf], by simp [latestOf]⟩
  | cons y t ih =>
      have hstep : latestOf e (y :: t) = latestOf (if y.mtime > e.mtime then y else e) t := rfl
      obtain ⟨hmem, hbound⟩ := ih (if y.mtime > e.mtime then y else e)
      constructor
      · rw [hstep]
        rcases List.mem_cons.mp hmem with h | h
        · by_cases hy : y.mtime > e.mtime
          · rw [if_pos hy] at h ⊢
            rw [h]
            simp
          · rw [if_neg hy] at h ⊢
            rw [h]
            simp
        · simp [h]
      · intro x hx
        rw [hstep]
        by_cases hy : y.mtime > e.mtime
        · rw [if_pos hy] at hbound ⊢
          rcases List.mem_cons.mp hx with rfl | hx
          · have hyb := hbound y (by simp)
            have hxy : x.mtime ≤ y.mtime := by omega
            exact le_trans hxy hyb
          · exact hbound x hx
        · rw [if_neg hy] at hbound ⊢
          rcases List.mem_cons.mp hx with rfl | hx
          · exact hbound x (by simp)
          · rcases List.mem_cons.mp hx with rfl | hx
            · have heb := hbound e (by simp)
              have hxe : x.mtime ≤ e.mtime := by omega
              exact le_trans hxe heb
            · exact hbound x (by simp [hx])

/-- C8: output-file selection returns the path of a most-recently-modified file
among the extension-matching regular files; when no file matches, of a
most-recently-modified regular file of any extension; when the workspace has no
regular files at all it returns nothing, in which case `_handle_download` fails
the task as not-found-after-extraction. -/
theorem find_latest_file_spec (entries : List FsEntry) (allowedExt : List String) :
    (matchingFiles entries allowedExt ≠ [] →
      ∃ e, e ∈ matchingFiles entries allowedExt ∧
        findLatestFile entries allowedExt = some e.path ∧
        ∀ x ∈ matchingFiles entries allowedExt, x.mtime ≤ e.mtime)
    ∧ (matchingFiles entries allowedExt = [] → regularFiles entries ≠ [] →
      ∃ e, e ∈ regularFiles entries ∧
        findLatestFile entries allowedExt = some e.path ∧
        ∀ x ∈ regularFiles entries, x.mtime ≤ e.mtime)
    ∧ (regularFiles entries = [] → findLatestFile entries allowedExt = none)
    ∧ (∀ (fsExists : String → Bool) (fileSizeMB : String → ℚ) (maxMB : Int)
        (sendFail : Option String),
        (handleDownload true none (Except.ok none) fsExists fileSizeMB maxMB
            sendFail true).status = DStatus.failed ∧
        (handleDownload true none (Except.ok none) fsExists fileSizeMB maxMB
            sendFail true).errorMessage = some "Файл не найден после загрузки.") := by
  refine ⟨?_, ?_, ?_, ?_⟩
  · intro hne
    cases hm : matchingFiles entries allowedExt with
    | nil => exact absurd hm hne
    | cons e rest =>
        obtain ⟨hmem, hbound⟩ := latestOf_spec e rest
        refine ⟨latestOf e rest, hmem, ?_, hbound⟩
        simp [findLatestFile, hm]
  · intro hm hne
    cases hr : regularFiles entries with
    | nil => exact absurd hr hne
    | cons e rest =>
        obtain ⟨hmem, hbound⟩ := latestOf_spec e rest
        refine ⟨latestOf e rest, hmem, ?_, hbound⟩
        simp [findLatestFile, hm, hr]
  · intro hr
    have hm : matchingFiles entries allowedExt = [] := by
      unfold matchingFiles
      unfold regularFiles at hr
      rw [List.filter_eq_nil_iff] at hr ⊢
      intro e he
      have hnf := hr e he
      simp only [Bool.not_eq_true] at hnf
      simp [hnf]
    simp [findLatestFile, hm, hr]
  · intro fsExists fileSizeMB maxMB sendFail
    exact ⟨rfl, rfl⟩

/-- Witness for C8: among two matching files the more recently modified one is
selected. -/
theorem find_latest_file_witness :
    (findLatestFile
      [{ path := "a.mp4", suffix := ".mp4", mtime := 5, isFile := true },
       { path := "b.mp4", suffix := ".mp4", mtime := 9, isFile := true }]
      [".mp4"]).isSome = true := by
  obtain ⟨e, -, heq, -⟩ :=
    (find_latest_file_spec
      [{ path := "a.mp4", suffix := ".mp4", mtime := 5, isFile := true },
       { path := "b.mp4", suffix := ".mp4", mtime := 9, isFile := true }]
      [".mp4"]).1 (by decide)
  rw [heq]
  rfl

end LainExBot
